import Mathlib

/-!
Verification of the FinanceBook category-hierarchy engine.

The definitions below are shallow embeddings of the TypeScript front-end of
the repository:

* `childrenMap` mirrors the parent-to-children index built in
  `CategoryEditPage.tsx` (the `childrenMap` memo): a fold over the category
  list that, for each category whose `parent_id` is truthy in the JavaScript
  sense (non-null and non-zero), appends the category id to the bucket of its
  parent.
* `runD` mirrors the `getDescendants` stack loop of `CategoryEditPage.tsx`,
  made total with an explicit fuel argument: `none` means the fuel ran out
  before the stack emptied.  The head of the list models the top of the
  JavaScript array stack (`pop` takes the head, pushed children end up in
  reverse order at the head).
* `runPushes` is the same loop instrumented to record every id ever pushed
  on the stack (the initial id included, matching `const stack = [id]`).
* `validParents` / `validParents002` mirror the two revisions of the
  parent-selection pick list (`CategoryEditPage.tsx` lines 86-88 and the
  revised page in `part_002` lines 151-157).
* `iconLoop` mirrors the icon-inheritance `while` loop of
  `PaymentItemLine.iconUrl` in `SummaryPage.tsx`, again with fuel.
* `buildPaymentQueryParams` / `buildPaymentQuery` mirror `buildPaymentQuery`
  in `api/hooks.ts`, and `paymentItemsQueryKey` the query key of
  `usePaymentItems`.
* `isExpense` / `isIncome` mirror `types.ts`.
-/

namespace FinanceBook

/-- Embedding of the `Category` interface of `types.ts` (the recursive
`children` field is never read by the code under verification and is left
out; the engine works on the flat list plus `parent_id`). -/
structure Category where
  id : Nat
  name : String
  type_id : Nat
  parent_id : Option Nat
  icon_file : Option String
deriving DecidableEq, Repr

/-- Embedding of the `PaymentItem` interface of `types.ts`, restricted to the
fields the verified code reads.  `amount` is the exact decimal amount,
modelled as an integer number of cents. -/
structure PaymentItem where
  id : Nat
  amount : Int
  date : String
  periodic : Bool
  categories : List Category
deriving DecidableEq, Repr

/-- `isExpense` of `types.ts`: `item.amount < 0`. -/
def isExpense (item : PaymentItem) : Bool :=
  decide (item.amount < 0)

/-- `isIncome` of `types.ts`: `item.amount >= 0`. -/
def isIncome (item : PaymentItem) : Bool :=
  decide (0 ≤ item.amount)

/-- One step of the `childrenMap` building loop of `CategoryEditPage.tsx`:
`if (c.parent_id) { if (!map[c.parent_id]) map[c.parent_id] = [];
map[c.parent_id].push(c.id); }`.  JavaScript truthiness makes the guard fail
both for a null and for a zero `parent_id`. -/
def childrenMapGo : List Category → (Nat → List Nat) → (Nat → List Nat)
  | [], m => m
  | c :: cs, m =>
      childrenMapGo cs
        (match c.parent_id with
          | some p =>
              if p = 0 then m
              else fun q => if q = p then m q ++ [c.id] else m q
          | none => m)

/-- The parent-to-children index of `CategoryEditPage.tsx` (`childrenMap`
memo), as a total function: a missing key reads as the empty bucket, matching
`childrenMap[current] || []` at the use site. -/
def childrenMap (cats : List Category) : Nat → List Nat :=
  childrenMapGo cats (fun _ => [])

/-- Boolean flag: category `c` is recorded as a child of `p` by the
`childrenMap` loop (truthy `parent_id` equal to `p`). -/
def childFlag (c : Category) (p : Nat) : Bool :=
  match c.parent_id with
  | some q => (!(q == 0)) && (q == p)
  | none => false

/-- Modelled from the spec (section 4.2, Tree Index Builder contract): the
index is expected to map each parent id `p` to exactly the ids of the input
categories whose `parent_id` equals `p`, in input order.  This is the
spec-side definition that `childrenMap` is compared against. -/
def childrenPerSpec (cats : List Category) (p : Nat) : List Nat :=
  (cats.filter (fun c => c.parent_id == some p)).map (fun c => c.id)

/-- The `getDescendants` stack loop of `CategoryEditPage.tsx`, fuel-indexed.
State: remaining fuel, the stack (head = top), and the accumulated `result`
array.  Each step pops the top, appends its children to `result` and pushes
them (so they sit reversed on the stack head).  `none` = fuel exhausted. -/
def runD (idx : Nat → List Nat) : Nat → List Nat → List Nat → Option (List Nat)
  | 0, _, _ => none
  | _ + 1, [], res => some res
  | f + 1, c :: st, res => runD idx f ((idx c).reverse ++ st) (res ++ idx c)

/-- The same loop instrumented to record every id ever pushed on the stack;
the accumulator starts as `[id]` because `const stack = [id]` pushes the
root. -/
def runPushes (idx : Nat → List Nat) : Nat → List Nat → List Nat → List Nat
  | 0, _, pushed => pushed
  | _ + 1, [], pushed => pushed
  | f + 1, c :: st, pushed => runPushes idx f ((idx c).reverse ++ st) (pushed ++ idx c)

/-- Reachability by child links in an index: `Reaches idx p x` holds when `x`
is obtained from `p` by following one or more child edges.  This is the
descendant relation of the spec (glossary: "all nodes reachable by
repeatedly following child links"). -/
inductive Reaches (idx : Nat → List Nat) : Nat → Nat → Prop
  | child {p c : Nat} : c ∈ idx p → Reaches idx p c
  | step {p c x : Nat} : c ∈ idx p → Reaches idx c x → Reaches idx p x

/-- The parent edge of one category decreases a given rank function (holds
vacuously for a root). -/
def parentRankOk (rank : Nat → Nat) (c : Category) : Bool :=
  match c.parent_id with
  | some p => decide (rank c.id < rank p)
  | none => true

/-- A rank function witnessing that the parent pointers of a category list
form a forest: every recorded parent edge strictly decreases the rank from
parent to child.  Every finite forest admits such a function (node height),
and conversely its existence rules out cycles. -/
def ForestRank (cats : List Category) (rank : Nat → Nat) : Prop :=
  ∀ c ∈ cats, parentRankOk rank c = true

/-- Unfolding the index-building fold: the bucket of `p` is the initial
bucket followed by the ids of the listed categories whose truthy parent is
`p`, in input order. -/
theorem childrenMapGo_eq (cats : List Category) :
    ∀ (m : Nat → List Nat) (p : Nat),
      childrenMapGo cats m p = m p ++ (cats.filter (fun c => childFlag c p)).map (fun c => c.id) := by
  induction cats with
  | nil => intro m p; simp [childrenMapGo]
  | cons c cs ih =>
      intro m p
      match hc : c.parent_id with
      | none =>
          have hflag : childFlag c p = false := by simp [childFlag, hc]
          simp [childrenMapGo, hc, ih, hflag]
      | some q =>
          by_cases hq : q = 0
          · have hflag : childFlag c p = false := by simp [childFlag, hc, hq]
            simp [childrenMapGo, hc, hq, ih, hflag]
          · by_cases hp : p = q
            · subst hp
              have hflag : childFlag c p = true := by simp [childFlag, hc, hq]
              simp [childrenMapGo, hc, hq, ih, hflag]
            · have hflag : childFlag c p = false := by
                simp only [childFlag, hc, Bool.and_eq_false_iff]
                right
                simp
                omega
              simp [childrenMapGo, hc, hq, ih, hflag, hp]

theorem childrenMap_eq (cats : List Category) (p : Nat) :
    childrenMap cats p = (cats.filter (fun c => childFlag c p)).map (fun c => c.id) := by
  simpa using childrenMapGo_eq cats (fun _ => []) p

/-- Membership in a bucket of the built index comes from a listed category
with a truthy parent pointer to that bucket. -/
theorem mem_childrenMap {cats : List Category} {p x : Nat}
    (h : x ∈ childrenMap cats p) :
    ∃ c ∈ cats, c.id = x ∧ c.parent_id = some p ∧ p ≠ 0 := by
  rw [childrenMap_eq] at h
  rcases List.mem_map.mp h with ⟨c, hc, hid⟩
  rcases List.mem_filter.mp hc with ⟨hmem, hflag⟩
  refine ⟨c, hmem, hid, ?_⟩
  unfold childFlag at hflag
  match hcp : c.parent_id with
  | none => rw [hcp] at hflag; simp at hflag
  | some q =>
      rw [hcp] at hflag
      simp at hflag
      rcases hflag with ⟨hq0, hqp⟩
      subst hqp
      exact ⟨rfl, hq0⟩

/-- Transitivity of the descendant relation. -/
theorem Reaches.trans {idx : Nat → List Nat} {p q x : Nat}
    (h1 : Reaches idx p q) (h2 : Reaches idx q x) : Reaches idx p x := by
  induction h1 with
  | child hc => exact Reaches.step hc h2
  | step hc _ ih => exact Reaches.step hc (ih h2)

/-- A rank function for the category list carries over to the built index:
every child edge strictly decreases the rank. -/
theorem childrenMap_rank {cats : List Category} {rank : Nat → Nat}
    (hf : ForestRank cats rank) {p x : Nat} (h : x ∈ childrenMap cats p) :
    rank x < rank p := by
  rcases mem_childrenMap h with ⟨c, hc, hid, hcp, -⟩
  have hok := hf c hc
  unfold parentRankOk at hok
  rw [hcp] at hok
  have : rank c.id < rank p := by simpa using hok
  simpa [hid] using this

/-- Every element the traversal ever returns is either part of the initial
accumulator or a strict descendant of some stack entry. -/
theorem runD_sound {idx : Nat → List Nat} :
    ∀ (f : Nat) (st res r : List Nat), runD idx f st res = some r →
      ∀ x ∈ r, x ∈ res ∨ ∃ s ∈ st, Reaches idx s x := by
  intro f
  induction f with
  | zero => intro st res r h; simp [runD] at h
  | succ f ih =>
      intro st res r h x hx
      match st with
      | [] =>
          simp only [runD, Option.some.injEq] at h
          exact Or.inl (h ▸ hx)
      | c :: st' =>
          simp only [runD] at h
          rcases ih _ _ _ h x hx with hres | ⟨s, hs, hreach⟩
          · rcases List.mem_append.mp hres with h1 | h2
            · exact Or.inl h1
            · exact Or.inr ⟨c, List.mem_cons_self c st', Reaches.child h2⟩
          · rcases List.mem_append.mp hs with h1 | h2
            · have hsch : s ∈ idx c := List.mem_reverse.mp h1
              exact Or.inr ⟨c, List.mem_cons_self c st', Reaches.trans (Reaches.child hsch) hreach⟩
            · exact Or.inr ⟨s, List.mem_cons_of_mem c h2, hreach⟩

/-- The accumulator is preserved by the traversal: whatever is already in
`result` is in the final result. -/
theorem runD_res_sub {idx : Nat → List Nat} :
    ∀ (f : Nat) (st res r : List Nat), runD idx f st res = some r → ∀ x ∈ res, x ∈ r := by
  intro f
  induction f with
  | zero => intro st res r h; simp [runD] at h
  | succ f ih =>
      intro st res r h x hx
      match st with
      | [] =>
          simp only [runD, Option.some.injEq] at h
          exact h ▸ hx
      | c :: st' =>
          simp only [runD] at h
          exact ih _ _ _ h x (List.mem_append.mpr (Or.inl hx))

/-- Every strict descendant of a stack entry ends up in the result of a
completed traversal. -/
theorem runD_complete {idx : Nat → List Nat} :
    ∀ (f : Nat) (st res r : List Nat), runD idx f st res = some r →
      ∀ s ∈ st, ∀ x, Reaches idx s x → x ∈ r := by
  intro f
  induction f with
  | zero => intro st res r h; simp [runD] at h
  | succ f ih =>
      intro st res r h s hs x hreach
      match st with
      | [] => simp at hs
      | c :: st' =>
          simp only [runD] at h
          rcases List.mem_cons.mp hs with hsc | hs'
          · subst hsc
            cases hreach with
            | child hx =>
                exact runD_res_sub f _ _ _ h x (List.mem_append.mpr (Or.inr hx))
            | step hc1 htail =>
                refine ih _ _ _ h _ ?_ x htail
                exact List.mem_append.mpr (Or.inl (List.mem_reverse.mpr hc1))
          · exact ih _ _ _ h s (List.mem_append.mpr (Or.inr hs')) x hreach

/-- Composition: a traversal that consumes `st1` from accumulator `res`
continues through an appended `st2` exactly as a fresh traversal of `st2`
from the intermediate accumulator would. -/
theorem runD_append {idx : Nat → List Nat} :
    ∀ (f1 : Nat) (st1 st2 res r1 : List Nat), runD idx f1 st1 res = some r1 →
      ∀ (f2 : Nat) (r2 : List Nat), runD idx f2 st2 r1 = some r2 →
        ∃ f, runD idx f (st1 ++ st2) res = some r2 := by
  intro f1
  induction f1 with
  | zero => intro st1 st2 res r1 h; simp [runD] at h
  | succ f1 ih =>
      intro st1 st2 res r1 h f2 r2 h2
      match st1 with
      | [] =>
          simp only [runD, Option.some.injEq] at h
          exact ⟨f2, by simpa [h] using h2⟩
      | c :: st1' =>
          simp only [runD] at h
          rcases ih _ st2 _ _ h f2 r2 h2 with ⟨f, hf⟩
          refine ⟨f + 1, ?_⟩
          show runD idx f ((idx c).reverse ++ (st1' ++ st2)) (res ++ idx c) = some r2
          rw [← List.append_assoc]
          exact hf

/-- Totality of the traversal on rank-decreasing (forest-shaped) indexes:
whenever every child edge strictly decreases a rank function, the stack loop
empties after finitely many steps. -/
theorem runD_total {idx : Nat → List Nat} {rank : Nat → Nat}
    (hr : ∀ p c, c ∈ idx p → rank c < rank p) :
    ∀ (n : Nat) (st : List Nat), (∀ s ∈ st, rank s < n) →
      ∀ res, ∃ f r, runD idx f st res = some r := by
  intro n
  induction n with
  | zero =>
      intro st hst res
      match st with
      | [] => exact ⟨1, res, rfl⟩
      | c :: st' => exact absurd (hst c (List.mem_cons_self c st')) (Nat.not_lt_zero _)
  | succ m ihm =>
      intro st
      induction st with
      | nil => intro _ res; exact ⟨1, res, rfl⟩
      | cons c st' ihst =>
          intro hst res
          have hc : rank c < m + 1 := hst c (List.mem_cons_self c st')
          have hch : ∀ s ∈ (idx c).reverse, rank s < m := by
            intro s hs
            have h1 : rank s < rank c := hr c s (List.mem_reverse.mp hs)
            exact Nat.lt_of_lt_of_le h1 (Nat.lt_succ_iff.mp hc)
          rcases ihm ((idx c).reverse) hch (res ++ idx c) with ⟨f1, r1, h1⟩
          rcases ihst (fun s hs => hst s (List.mem_cons_of_mem c hs)) r1 with ⟨f2, r2, h2⟩
          rcases runD_append f1 _ st' _ _ h1 f2 r2 h2 with ⟨f, hf⟩
          exact ⟨f + 1, r2, by simpa [runD] using hf⟩

/-- A completed traversal started on the singleton stack of a root id, with
an empty accumulator, returns exactly the descendants of the root. -/
theorem runD_start_exact {cats : List Category} {f C : Nat} {r : List Nat}
    (hrun : runD (childrenMap cats) f [C] [] = some r) :
    ∀ x, x ∈ r ↔ Reaches (childrenMap cats) C x := by
  intro x
  constructor
  · intro hx
    rcases runD_sound f _ _ _ hrun x hx with h0 | ⟨s, hs, hre⟩
    · simp at h0
    · have : s = C := by simpa using hs
      subst this
      exact hre
  · intro hre
    exact runD_complete f _ _ _ hrun C (by simp) x hre

/-- The parent pick list of `CategoryEditPage.tsx` (lines 86-88): categories
of the selected type, other than the edited category, that are not among its
descendants.  The descendant list computed by `getDescendants(cat.id)` is
passed in as `desc`. -/
def validParents (categories : List Category) (typeId catId : Nat) (desc : List Nat) : List Category :=
  categories.filter (fun c =>
    c.type_id == typeId && (!(c.id == catId)) && (!(desc.contains c.id)))

/-- The parent pick list of the revised category editor (`part_002`, lines
151-157): same as `validParents` with categories named UNCLASSIFIED
additionally removed. -/
def validParents002 (categories : List Category) (typeId catId : Nat) (desc : List Nat) : List Category :=
  categories.filter (fun c =>
    c.type_id == typeId && (!(c.id == catId)) && (!(desc.contains c.id)) &&
      (!(c.name == "UNCLASSIFIED")))

/-! Scenario data of the spec (section 8): Food / Restaurants / FastFood,
where only Food carries an icon, and a deliberately malformed two-element
cycle used to probe the defensive claims. -/

/-- Scenario category Food: id 1, root, icon `food.png`. -/
def foodCat : Category := { id := 1, name := "Food", type_id := 1, parent_id := none, icon_file := some "food.png" }

/-- Scenario category Restaurants: id 2, child of Food, no icon. -/
def restaurantsCat : Category := { id := 2, name := "Restaurants", type_id := 1, parent_id := some 1, icon_file := none }

/-- Scenario category FastFood: id 3, child of Restaurants, no icon. -/
def fastFoodCat : Category := { id := 3, name := "FastFood", type_id := 1, parent_id := some 2, icon_file := none }

/-- The three scenario categories of spec section 8. -/
def scenCats : List Category := [foodCat, restaurantsCat, fastFoodCat]

/-- A rank function witnessing that the scenario list is a forest. -/
def scenRank : Nat → Nat := fun n => 3 - n

/-- A malformed pair of categories whose parent pointers form a 2-cycle
(id 1 points to id 2 and vice versa); neither has an icon. -/
def cycA : Category := { id := 1, name := "A", type_id := 1, parent_id := some 2, icon_file := none }

/-- Second half of the malformed cycle. -/
def cycB : Category := { id := 2, name := "B", type_id := 1, parent_id := some 1, icon_file := none }

/-- The malformed cyclic category list. -/
def cycCats : List Category := [cycA, cycB]

/-- C1: over the index built from a forest-shaped category list, the
`getDescendants` stack loop terminates and returns exactly the ids reachable
from the start id by repeatedly following child links; in particular it
returns the empty set when the start has no children, and on the
Food / Restaurants / FastFood scenario it returns exactly the set containing
2 and 3 for id 1. -/
theorem c1_getDescendants_exact :
    (∀ (cats : List Category) (rank : Nat → Nat) (C : Nat), ForestRank cats rank →
      ∃ f r, runD (childrenMap cats) f [C] [] = some r ∧
        (∀ x, x ∈ r ↔ Reaches (childrenMap cats) C x) ∧
        (childrenMap cats C = [] → r = [])) ∧
    (∃ r, runD (childrenMap scenCats) 4 [1] [] = some r ∧
      ∀ x, x ∈ r ↔ (x = 2 ∨ x = 3)) := by
  constructor
  · intro cats rank C hf
    have hr : ∀ p c, c ∈ childrenMap cats p → rank c < rank p :=
      fun p c h => childrenMap_rank hf h
    have hst : ∀ s ∈ [C], rank s < rank C + 1 := by
      intro s hs
      have : s = C := by simpa using hs
      subst this
      exact Nat.lt_succ_self _
    obtain ⟨f, r, hrun⟩ := runD_total hr (rank C + 1) [C] hst []
    have hiff := runD_start_exact hrun
    refine ⟨f, r, hrun, hiff, ?_⟩
    intro hemp
    refine List.eq_nil_iff_forall_not_mem.mpr ?_
    intro x hx
    have hre := (hiff x).mp hx
    cases hre with
    | child hc => rw [hemp] at hc; simp at hc
    | step hc _ => rw [hemp] at hc; simp at hc
  · refine ⟨[2, 3], by decide, ?_⟩
    intro x
    simp

/-- Witness for C1: the scenario list is a forest under `scenRank`, and the
theorem applies to it with start id 1. -/
theorem c1_getDescendants_exact_witness :
    ForestRank scenCats scenRank ∧
    (∃ f r, runD (childrenMap scenCats) f [1] [] = some r ∧
      (∀ x, x ∈ r ↔ Reaches (childrenMap scenCats) 1 x) ∧
      (childrenMap scenCats 1 = [] → r = [])) :=
  ⟨by unfold ForestRank; decide,
    c1_getDescendants_exact.1 scenCats scenRank 1 (by unfold ForestRank; decide)⟩

/-- Root category used in the pick-list counterexamples. -/
def rootCat : Category := { id := 1, name := "Root", type_id := 1, parent_id := none, icon_file := none }

/-- An UNCLASSIFIED category of the same type as `rootCat`. -/
def unclCat : Category := { id := 2, name := "UNCLASSIFIED", type_id := 1, parent_id := none, icon_file := none }

/-- Category list holding a root and an UNCLASSIFIED category, both roots of
the same type. -/
def cEx2 : List Category := [rootCat, unclCat]

/-- C2 counterexample: in the revised category editor (`part_002`), a
candidate parent that exists, has the same type as the edited category, is
not the category itself and is not one of its descendants is nevertheless
missing from `validParents` when it is named UNCLASSIFIED. -/
theorem c2_counterexample :
    unclCat ∈ cEx2 ∧ unclCat.type_id = 1 ∧
    runD (childrenMap cEx2) 2 [1] [] = some [] ∧
    ¬(unclCat.id = 1 ∨ Reaches (childrenMap cEx2) 1 unclCat.id) ∧
    unclCat ∉ validParents002 cEx2 1 1 [] := by
  have hnil : childrenMap cEx2 1 = [] := by decide
  refine ⟨by decide, rfl, by decide, ?_, by decide⟩
  rintro (h | h)
  · exact absurd h (by decide)
  · cases h with
    | child hc => rw [hnil] at hc; simp at hc
    | step hc _ => rw [hnil] at hc; simp at hc

/-- C2 (amended): for a candidate parent `P` that exists in the category
list and has the selected type, membership in the pick list of
`CategoryEditPage.tsx` is false exactly when `P` is the edited category or
one of its descendants; in the `part_002` revision the pick list further
drops candidates named UNCLASSIFIED. -/
theorem c2_validParents_iff :
    (∀ (cats : List Category) (typeId Cid : Nat) (P : Category) (f : Nat) (r : List Nat),
      P ∈ cats → P.type_id = typeId →
      runD (childrenMap cats) f [Cid] [] = some r →
      (P ∈ validParents cats typeId Cid r ↔
        ¬(P.id = Cid ∨ Reaches (childrenMap cats) Cid P.id))) ∧
    (∀ (cats : List Category) (typeId Cid : Nat) (P : Category) (f : Nat) (r : List Nat),
      P ∈ cats → P.type_id = typeId →
      runD (childrenMap cats) f [Cid] [] = some r →
      (P ∈ validParents002 cats typeId Cid r ↔
        ¬(P.id = Cid ∨ Reaches (childrenMap cats) Cid P.id ∨ P.name = "UNCLASSIFIED"))) := by
  constructor
  · intro cats typeId Cid P f r hmem htype hrun
    have hdesc : (P.id ∈ r) ↔ Reaches (childrenMap cats) Cid P.id := runD_start_exact hrun P.id
    simp [validParents, List.mem_filter, hmem, htype, not_or, hdesc.symm]
  · intro cats typeId Cid P f r hmem htype hrun
    have hdesc : (P.id ∈ r) ↔ Reaches (childrenMap cats) Cid P.id := runD_start_exact hrun P.id
    simp [validParents002, List.mem_filter, hmem, htype, not_or, hdesc.symm]
    tauto

/-- Witness for C2: on the scenario forest, with Food (id 1) being edited,
FastFood is a same-type candidate and the equivalence applies to it. -/
theorem c2_validParents_iff_witness :
    (fastFoodCat ∈ scenCats ∧ fastFoodCat.type_id = 1 ∧
      runD (childrenMap scenCats) 4 [1] [] = some [2, 3]) ∧
    (fastFoodCat ∈ validParents scenCats 1 1 [2, 3] ↔
      ¬(fastFoodCat.id = 1 ∨ Reaches (childrenMap scenCats) 1 fastFoodCat.id)) :=
  ⟨⟨by decide, rfl, by decide⟩,
    c2_validParents_iff.1 scenCats 1 1 fastFoodCat 4 [2, 3] (by decide) rfl (by decide)⟩

/-- C3 counterexample: on the index built from the malformed cyclic pair,
the `getDescendants` loop pushes node 1 a second time within two steps (the
instrumented push trace records id 1 at least twice), refuting the claim
that the traversal never visits a node more than once on every input
index. -/
theorem c3_counterexample :
    2 ≤ (runPushes (childrenMap cycCats) 2 [1] [1]).count 1 := by
  decide

/-- C3 (amended): the `getDescendants` loop terminates on every index built
from a forest-shaped category list, but it keeps no visited set: on the
index built from the malformed cyclic pair it never terminates, whatever the
fuel. -/
theorem c3_traversal_termination :
    (∀ (cats : List Category) (rank : Nat → Nat) (C : Nat), ForestRank cats rank →
      ∃ f r, runD (childrenMap cats) f [C] [] = some r) ∧
    (∀ (f : Nat) (res : List Nat), runD (childrenMap cycCats) f [1] res = none) := by
  constructor
  · intro cats rank C hf
    have hr : ∀ p c, c ∈ childrenMap cats p → rank c < rank p :=
      fun p c h => childrenMap_rank hf h
    have hst : ∀ s ∈ [C], rank s < rank C + 1 := by
      intro s hs
      have : s = C := by simpa using hs
      subst this
      exact Nat.lt_succ_self _
    exact runD_total hr (rank C + 1) [C] hst []
  · have h1 : childrenMap cycCats 1 = [2] := by decide
    have h2 : childrenMap cycCats 2 = [1] := by decide
    have key : ∀ (f : Nat) (res : List Nat),
        runD (childrenMap cycCats) f [1] res = none ∧
        runD (childrenMap cycCats) f [2] res = none := by
      intro f
      induction f with
      | zero => intro res; exact ⟨rfl, rfl⟩
      | succ f ih =>
          intro res
          constructor
          · show runD (childrenMap cycCats) f
              ((childrenMap cycCats 1).reverse ++ []) (res ++ childrenMap cycCats 1) = none
            rw [h1]
            simpa using (ih (res ++ [2])).2
          · show runD (childrenMap cycCats) f
              ((childrenMap cycCats 2).reverse ++ []) (res ++ childrenMap cycCats 2) = none
            rw [h2]
            simpa using (ih (res ++ [1])).1
    exact fun f res => (key f res).1

/-- Witness for C3 (amended): applied to the scenario forest. -/
theorem c3_traversal_termination_witness :
    ForestRank scenCats scenRank ∧
    (∃ f r, runD (childrenMap scenCats) f [1] [] = some r) :=
  ⟨by unfold ForestRank; decide,
    c3_traversal_termination.1 scenCats scenRank 1 (by unfold ForestRank; decide)⟩

/-- JavaScript truthiness of a nullable string (`if (current.icon_file)`):
non-null and non-empty. -/
def truthyStr : Option String → Bool
  | some s => !(s == "")
  | none => false

/-- The parent lookup of the icon loop in `SummaryPage.tsx`:
`allCategories.find(c => c.id === current?.parent_id) || undefined`. -/
def findParent (cats : List Category) (c : Category) : Option Category :=
  match c.parent_id with
  | some p => cats.find? (fun d => d.id == p)
  | none => none

/-- The `while (current)` loop of `PaymentItemLine.iconUrl` in
`SummaryPage.tsx`, fuel-indexed: walking up the parent chain, return the
first truthy `icon_file` (`some (some s)`), or `some none` when the chain
ends without one; `none` means the fuel ran out before the loop finished. -/
def iconLoop (cats : List Category) : Nat → Option Category → Option (Option String)
  | 0, _ => none
  | _ + 1, none => some none
  | f + 1, some c =>
      if truthyStr c.icon_file then some c.icon_file
      else iconLoop cats f (findParent cats c)

/-- The URL `PaymentItemLine.iconUrl` builds from a resolved icon file. -/
def iconUrlOf : Option String → Option String
  | some s => some ("/api/download_static/" ++ s)
  | none => none

/-- Declarative icon-resolution relation, following spec section 4.6: if the
category's own `icon_file` is set, the resolved icon is that file; otherwise
it is the icon resolved at the parent; when the chain ends without an icon
the result is null. -/
inductive ResolvesIconSpec (cats : List Category) : Category → Option String → Prop
  | own {c : Category} :
      truthyStr c.icon_file = true → ResolvesIconSpec cats c c.icon_file
  | up {c p : Category} {r : Option String} :
      truthyStr c.icon_file = false → findParent cats c = some p →
      ResolvesIconSpec cats p r → ResolvesIconSpec cats c r
  | exhausted {c : Category} :
      truthyStr c.icon_file = false → findParent cats c = none →
      ResolvesIconSpec cats c none

/-- The parent-chain step at one category decreases a given rank function
(vacuously true when the lookup finds no parent). -/
def parentStepOk (cats : List Category) (rank : Nat → Nat) (c : Category) : Bool :=
  match findParent cats c with
  | some p => decide (rank p.id < rank c.id)
  | none => true

/-- A rank function witnessing that the parent chains through a category
list are acyclic: every successful parent lookup strictly decreases the
rank. -/
def ChainRank (cats : List Category) (rank : Nat → Nat) : Prop :=
  ∀ c ∈ cats, parentStepOk cats rank c = true

/-- A found parent is a member of the category list. -/
theorem findParent_mem {cats : List Category} {c p : Category}
    (hp : findParent cats c = some p) : p ∈ cats := by
  unfold findParent at hp
  match hcp : c.parent_id with
  | none => rw [hcp] at hp; simp at hp
  | some q =>
      rw [hcp] at hp
      exact List.mem_of_find?_eq_some hp

/-- On rank-decreasing parent chains the icon loop terminates and its result
satisfies the declarative resolution relation of the spec. -/
theorem iconLoop_correct {cats : List Category} {rank : Nat → Nat}
    (hall : ChainRank cats rank) :
    ∀ (n : Nat) (c : Category), rank c.id < n → parentStepOk cats rank c = true →
      ∃ f r, iconLoop cats f (some c) = some r ∧ ResolvesIconSpec cats c r := by
  intro n
  induction n with
  | zero => intro c hc _; exact absurd hc (Nat.not_lt_zero _)
  | succ m ih =>
      intro c hc hstep
      by_cases hicon : truthyStr c.icon_file = true
      · refine ⟨1, c.icon_file, ?_, ResolvesIconSpec.own hicon⟩
        simp [iconLoop, hicon]
      · have hicon' : truthyStr c.icon_file = false := by
          simpa using hicon
        match hp : findParent cats c with
        | none =>
            refine ⟨2, none, ?_, ResolvesIconSpec.exhausted hicon' hp⟩
            simp [iconLoop, hicon', hp]
        | some p =>
            have hpmem : p ∈ cats := findParent_mem hp
            have hrankp : rank p.id < rank c.id := by
              unfold parentStepOk at hstep
              rw [hp] at hstep
              simpa using hstep
            have hpn : rank p.id < m :=
              Nat.lt_of_lt_of_le hrankp (Nat.lt_succ_iff.mp hc)
            obtain ⟨f, r, hloop, hspec⟩ := ih p hpn (hall p hpmem)
            refine ⟨f + 1, r, ?_, ResolvesIconSpec.up hicon' hp hspec⟩
            simp [iconLoop, hicon', hp, hloop]

/-- C4: for every category whose parent chain through the list is acyclic
(rank-decreasing), the icon loop terminates and resolves to the category's
own icon when set, otherwise the nearest ancestor's icon, otherwise null —
stated as realising the declarative spec relation; and on the scenario where
only Food carries `food.png`, resolving FastFood yields `food.png`. -/
theorem c4_icon_resolution :
    (∀ (cats : List Category) (rank : Nat → Nat) (start : Category),
      ChainRank cats rank → parentStepOk cats rank start = true →
      ∃ f r, iconLoop cats f (some start) = some r ∧ ResolvesIconSpec cats start r) ∧
    iconLoop scenCats 5 (some fastFoodCat) = some (some "food.png") := by
  constructor
  · intro cats rank start hall hstart
    exact iconLoop_correct hall (rank start.id + 1) start (Nat.lt_succ_self _) hstart
  · decide

/-- Witness for C4: the scenario list has rank-decreasing parent chains
under the identity rank, and the theorem applies with start FastFood. -/
theorem c4_icon_resolution_witness :
    (ChainRank scenCats (fun n => n) ∧
      parentStepOk scenCats (fun n => n) fastFoodCat = true) ∧
    (∃ f r, iconLoop scenCats f (some fastFoodCat) = some r ∧
      ResolvesIconSpec scenCats fastFoodCat r) :=
  ⟨⟨by unfold ChainRank; decide, by decide⟩,
    c4_icon_resolution.1 scenCats (fun n => n) fastFoodCat
      (by unfold ChainRank; decide) (by decide)⟩

/-- C7 counterexample: the malformed two-category cycle has no icons; after
ten loop steps — five times the category count — the icon loop is still
running, so its step count is not bounded by the number of categories and it
does not terminate on every stored category set. -/
theorem c7_counterexample :
    cycCats.length = 2 ∧ iconLoop cycCats 10 (some cycA) = none := by
  decide

/-- C7 (amended): icon resolution terminates on every category set whose
parent chains are acyclic (rank-decreasing); the code caps nothing, and on
the icon-less cyclic pair the loop never finishes, whatever the fuel. -/
theorem c7_icon_termination :
    (∀ (cats : List Category) (rank : Nat → Nat) (start : Category),
      ChainRank cats rank → parentStepOk cats rank start = true →
      ∃ f r, iconLoop cats f (some start) = some r) ∧
    (∀ f : Nat, iconLoop cycCats f (some cycA) = none) := by
  constructor
  · intro cats rank start hall hstart
    obtain ⟨f, r, h, -⟩ :=
      iconLoop_correct hall (rank start.id + 1) start (Nat.lt_succ_self _) hstart
    exact ⟨f, r, h⟩
  · have hA : findParent cycCats cycA = some cycB := by decide
    have hB : findParent cycCats cycB = some cycA := by decide
    have hiA : truthyStr cycA.icon_file = false := by decide
    have hiB : truthyStr cycB.icon_file = false := by decide
    have key : ∀ f : Nat,
        iconLoop cycCats f (some cycA) = none ∧ iconLoop cycCats f (some cycB) = none := by
      intro f
      induction f with
      | zero => exact ⟨rfl, rfl⟩
      | succ f ih =>
          constructor
          · simp only [iconLoop, hiA, hA, Bool.false_eq_true, if_false]
            exact ih.2
          · simp only [iconLoop, hiB, hB, Bool.false_eq_true, if_false]
            exact ih.1
    exact fun f => (key f).1

/-- Witness for C7 (amended): applied to the scenario list and FastFood. -/
theorem c7_icon_termination_witness :
    (ChainRank scenCats (fun n => n) ∧
      parentStepOk scenCats (fun n => n) fastFoodCat = true) ∧
    (∃ f r, iconLoop scenCats f (some fastFoodCat) = some r) :=
  ⟨⟨by unfold ChainRank; decide, by decide⟩,
    c7_icon_termination.1 scenCats (fun n => n) fastFoodCat
      (by unfold ChainRank; decide) (by decide)⟩

/-- The `URLSearchParams` content produced by `buildPaymentQuery` in
`api/hooks.ts`: flags first, then one `category_ids` entry per id — the
latter only when the id list is non-empty. -/
def buildPaymentQueryParams (expense_only income_only : Bool) (category_ids : List Nat) :
    List (String × String) :=
  (if expense_only then [("expense_only", "true")] else []) ++
    (if income_only then [("income_only", "true")] else []) ++
    (if category_ids.length > 0 then category_ids.map (fun i => ("category_ids", toString i)) else [])

/-- The query string `buildPaymentQuery` returns: the serialized parameters
prefixed with a question mark, or the empty string when there are none. -/
def buildPaymentQuery (expense_only income_only : Bool) (category_ids : List Nat) : String :=
  let s := String.intercalate "&"
    ((buildPaymentQueryParams expense_only income_only category_ids).map
      (fun kv => kv.1 ++ "=" ++ kv.2))
  if s == "" then "" else "?" ++ s

/-- Modelled from the spec (sections 4.5 and 6): the backend category filter
of `GET /payment-items` — the FastAPI `app/main.py` is not among the
sources.  A request with no `category_ids` parameter applies no category
filter, so every item matches; with the parameter present an item matches
when its category-id set intersects the (expanded) filter set. -/
def matchesCategoryFilter : Option (List Nat) → List Nat → Bool
  | none, _ => true
  | some ids, itemCats => itemCats.any (fun c => ids.contains c)

/-- The category filter carried by a built query: present exactly when the
id list is non-empty, mirroring the emission guard of `buildPaymentQuery`. -/
def categoryFilterOf (category_ids : List Nat) : Option (List Nat) :=
  if category_ids.length > 0 then some category_ids else none

/-- C5: an empty selection emits no `category_ids` parameter at all — the
only query strings it can produce carry just the flags — and the absent
filter matches every item, including items with no category. -/
theorem c5_empty_selection_no_filter :
    ∀ (eo io : Bool) (itemCats : List Nat),
      ("category_ids" ∉ (buildPaymentQueryParams eo io []).map Prod.fst) ∧
      categoryFilterOf [] = none ∧
      matchesCategoryFilter (categoryFilterOf []) itemCats = true ∧
      buildPaymentQuery eo io [] ∈
        ["", "?expense_only=true", "?income_only=true", "?expense_only=true&income_only=true"] := by
  intro eo io itemCats
  refine ⟨?_, rfl, rfl, ?_⟩
  · cases eo <;> cases io <;> simp [buildPaymentQueryParams]
  · cases eo <;> cases io <;> decide

/-- The category-filter dropdown options of the summary page
(`SummaryPage.tsx` lines 391-398): every category not already selected. -/
def summaryFilterOptions (allCategories : List Category) (selectedCategoryIds : List Nat) :
    List Category :=
  allCategories.filter (fun cat => !(selectedCategoryIds.contains cat.id))

/-- The category-assignment dropdown options of the payment form
(`PaymentItemForm.tsx` line 602): categories not named UNCLASSIFIED. -/
def paymentFormCategoryOptions (categories : List Category) : List Category :=
  categories.filter (fun cat => !(cat.name == "UNCLASSIFIED"))

/-- C6 counterexample: a category named UNCLASSIFIED is offered both by the
summary-page category-filter dropdown and by the parent pick list of
`CategoryEditPage.tsx`, so it is not excluded from every user-facing
pick-list. -/
theorem c6_counterexample :
    unclCat.name = "UNCLASSIFIED" ∧
    unclCat ∈ summaryFilterOptions cEx2 [] ∧
    unclCat ∈ validParents cEx2 1 1 [] := by
  decide

/-- C6 (amended): the payment-form category dropdown and the revised
(`part_002`) parent pick list never offer a category named UNCLASSIFIED. -/
theorem c6_unclassified_excluded :
    (∀ (cats : List Category) (c : Category),
      c ∈ paymentFormCategoryOptions cats → c.name ≠ "UNCLASSIFIED") ∧
    (∀ (cats : List Category) (typeId catId : Nat) (desc : List Nat) (c : Category),
      c ∈ validParents002 cats typeId catId desc → c.name ≠ "UNCLASSIFIED") := by
  constructor
  · intro cats c hc hname
    rcases List.mem_filter.mp hc with ⟨-, hpred⟩
    simp [hname] at hpred
  · intro cats typeId catId desc c hc hname
    rcases List.mem_filter.mp hc with ⟨-, hpred⟩
    simp [hname] at hpred

/-- Witness for C6 (amended): Food sits in the payment-form dropdown and is
not named UNCLASSIFIED. -/
theorem c6_unclassified_excluded_witness :
    foodCat ∈ paymentFormCategoryOptions [foodCat] ∧ foodCat.name ≠ "UNCLASSIFIED" :=
  ⟨by decide, c6_unclassified_excluded.1 [foodCat] foodCat (by decide)⟩

/-- A category whose recorded parent id is zero — a value JavaScript
truthiness treats like null. -/
def catZero : Category := { id := 7, name := "Zed", type_id := 1, parent_id := some 0, icon_file := none }

/-- C8 counterexample: the index built by `childrenMap` drops a category
whose non-null parent id is 0 (the JavaScript guard `if (c.parent_id)` is
falsy for 0), so the bucket of parent id 0 differs from the ids of the
categories whose `parent_id` equals 0. -/
theorem c8_counterexample :
    childrenMap [catZero] 0 = [] ∧ childrenPerSpec [catZero] 0 = [7] ∧
    childrenMap [catZero] 0 ≠ childrenPerSpec [catZero] 0 := by
  decide

/-- C8 (amended): for every non-null, non-zero parent id the built index
bucket holds exactly the ids of the input categories whose `parent_id`
equals it, in input order; the bucket of parent id 0 is always empty (and a
category with a null parent id is never recorded under any key). -/
theorem c8_childrenMap_spec :
    (∀ (cats : List Category) (p : Nat), p ≠ 0 →
      childrenMap cats p = childrenPerSpec cats p) ∧
    (∀ cats : List Category, childrenMap cats 0 = []) := by
  constructor
  · intro cats p hp
    rw [childrenMap_eq, childrenPerSpec]
    congr 1
    apply List.filter_congr
    intro c _
    unfold childFlag
    match hc : c.parent_id with
    | none => simp
    | some q =>
        by_cases hqp : q = p
        · subst hqp
          simp [hp]
        · simp [hqp]
  · intro cats
    rw [childrenMap_eq]
    have hall : ∀ c ∈ cats, ¬(childFlag c 0 = true) := by
      intro c _
      unfold childFlag
      match c.parent_id with
      | none => simp
      | some q =>
          by_cases hq : q = 0 <;> simp [hq]
    have hfil : cats.filter (fun c => childFlag c 0) = [] := by
      rw [List.filter_eq_nil_iff]
      exact hall
    rw [hfil]
    rfl

/-- Witness for C8 (amended): the scenario list at parent id 1. -/
theorem c8_childrenMap_spec_witness :
    (1 : Nat) ≠ 0 ∧ childrenMap scenCats 1 = childrenPerSpec scenCats 1 :=
  ⟨by decide, c8_childrenMap_spec.1 scenCats 1 (by decide)⟩

/-- A payment item whose amount is exactly zero. -/
def zeroItem : PaymentItem :=
  { id := 1, amount := 0, date := "2025-06-06T13:37:00+02:00", periodic := false, categories := [] }

/-- C9: `isExpense` is the pointwise negation of `isIncome`, so exactly one
of the two holds of every payment item, and an item with amount exactly 0 is
classified as an income, not an expense. -/
theorem c9_expense_income_negation :
    ∀ item : PaymentItem,
      isExpense item = !(isIncome item) ∧
      (item.amount = 0 → isIncome item = true ∧ isExpense item = false) := by
  intro item
  constructor
  · unfold isExpense isIncome
    rcases lt_or_ge item.amount 0 with h | h
    · have h2 : ¬(0 : Int) ≤ item.amount := not_le.mpr h
      simp [h, h2]
    · have h2 : ¬item.amount < 0 := not_lt.mpr h
      simp [h, h2]
  · intro h0
    unfold isExpense isIncome
    simp [h0]

/-- Witness for C9: the zero-amount item is an income and not an expense. -/
theorem c9_expense_income_negation_witness :
    zeroItem.amount = 0 ∧ (isIncome zeroItem = true ∧ isExpense zeroItem = false) :=
  ⟨rfl, (c9_expense_income_negation zeroItem).2 rfl⟩

/-- The React-Query cache key of `usePaymentItems` in `api/hooks.ts`: the
literal tag, the two flags, and the selected category ids sorted ascending
and joined with commas. -/
def paymentItemsQueryKey (expenseOnly incomeOnly : Bool) (categoryIds : List Nat) :
    String × Bool × Bool × String :=
  ("payment-items", expenseOnly, incomeOnly,
    String.intercalate ","
      ((List.insertionSort (fun a b => a ≤ b) categoryIds).map (fun n => toString n)))

/-- C10: the cache key is invariant under permutation of the selected
category ids, because the ids are sorted ascending before being joined. -/
theorem c10_queryKey_perm_invariant :
    ∀ (eo io : Bool) (ids1 ids2 : List Nat), ids1.Perm ids2 →
      paymentItemsQueryKey eo io ids1 = paymentItemsQueryKey eo io ids2 := by
  intro eo io ids1 ids2 hperm
  unfold paymentItemsQueryKey
  haveI hanti : IsAntisymm Nat (fun a b : Nat => a ≤ b) :=
    ⟨fun _ _ h1 h2 => Nat.le_antisymm h1 h2⟩
  haveI htot : IsTotal Nat (fun a b : Nat => a ≤ b) := ⟨fun a b => Nat.le_total a b⟩
  haveI htrans : IsTrans Nat (fun a b : Nat => a ≤ b) := ⟨fun _ _ _ => Nat.le_trans⟩
  have hperm2 : (List.insertionSort (fun a b : Nat => a ≤ b) ids1).Perm
      (List.insertionSort (fun a b : Nat => a ≤ b) ids2) :=
    (List.perm_insertionSort _ ids1).trans
      (hperm.trans (List.perm_insertionSort _ ids2).symm)
  have hs1 : List.Sorted (fun a b : Nat => a ≤ b)
      (List.insertionSort (fun a b : Nat => a ≤ b) ids1) :=
    List.sorted_insertionSort _ ids1
  have hs2 : List.Sorted (fun a b : Nat => a ≤ b)
      (List.insertionSort (fun a b : Nat => a ≤ b) ids2) :=
    List.sorted_insertionSort _ ids2
  have hsorted := @List.eq_of_perm_of_sorted Nat (fun a b : Nat => a ≤ b) hanti _ _ hperm2 hs1 hs2
  rw [hsorted]

/-- Witness for C10: two permuted concrete id lists yield the same key. -/
theorem c10_queryKey_perm_invariant_witness :
    ([3, 1, 2] : List Nat).Perm [2, 3, 1] ∧
    paymentItemsQueryKey true false [3, 1, 2] = paymentItemsQueryKey true false [2, 3, 1] :=
  ⟨by decide, c10_queryKey_perm_invariant true false [3, 1, 2] [2, 3, 1] (by decide)⟩

end FinanceBook
